import Mathlib

/-!
Verification development for the binvis repository (src/main.rs).

The shallow embedding below translates the core of the program:
* `Pos2` and `Image` (the generic 2-D grid with row-major backing storage),
* `HilbertCurve` (`new`, `rotate`, `point_to_value`, `value_to_point`),
* `put_points` (adjacent-byte-pair frequency accumulation).

Machine integers (`usize`, `u32`, `u8`) are modelled as `Nat`; u8 inputs
carry an explicit `< 256` hypothesis where it matters.  A Rust panic
(`assert_eq!`, the explicit `panic!`, and the debug-mode underflow of
`order -= 1`) is modelled as `Option.none` at the level of the fallible
operations (`HilbertCurve.new`, `Image.hilbertify`, `Image.unhilbertify`,
`Image.get?`, `Image.set?`).  `Nat` subtraction inside
`HilbertCurve.rotate` is truncated; every theorem below only evaluates it
on arguments where the source's `usize` subtraction does not underflow
(coordinates stay below the quadrant size), which is proved as part of the
range invariants.  The out-of-range `Vec` write panic inside
`remap_positions` cannot fire under the in-range hypotheses of the
theorems that use it, so the write is modelled with `List.set`.
-/

/-- `Pos2<T>` from the source, at `T = usize` (`Nat`). -/
structure Pos2 where
  x : Nat
  y : Nat
deriving DecidableEq

/-- `Image<T>`: `data` is the row-major backing buffer. -/
structure Image (T : Type) where
  data : List T
  width : Nat
  height : Nat
deriving DecidableEq

namespace Image

variable {T U : Type}

/-- `Image::new(width, height, c)`: `vec![c; width * height]`. -/
def new (T : Type) (width height : Nat) (c : T) : Image T :=
  ⟨List.replicate (width * height) c, width, height⟩

/-- `Image::to_index_assoc(width, pos)`: `pos.y * width + pos.x`. -/
def to_index_assoc (width : Nat) (pos : Pos2) : Nat :=
  pos.y * width + pos.x

/-- `Image::to_index(pos)`. -/
def to_index (img : Image T) (pos : Pos2) : Nat :=
  to_index_assoc img.width pos

/-- `Image::index_to_pos_assoc(width, index)`. -/
def index_to_pos_assoc (width : Nat) (index : Nat) : Pos2 :=
  ⟨index % width, index / width⟩

/-- The `Index<Pos2<usize>>` impl: `&self.data[self.to_index(index)]`.
`none` models the out-of-bounds panic of `Vec` indexing. -/
def get? (img : Image T) (pos : Pos2) : Option T :=
  img.data[img.to_index pos]?

/-- The `IndexMut<Pos2<usize>>` impl: `&mut self.data[index] = v`.
`none` models the out-of-bounds panic of `Vec` indexing. -/
def set? (img : Image T) (pos : Pos2) (v : T) : Option (Image T) :=
  let i := img.to_index pos
  if i < img.data.length then some { img with data := img.data.set i v }
  else none

/-- `Image::map(f)`. -/
def map (img : Image T) (f : T → U) : Image U :=
  ⟨img.data.map f, img.width, img.height⟩

/-- The write loop of `remap_positions`: for each `(i, value)` of `l`
(the enumerated source data), `output[f(i)] = value`. -/
def writeAll (f : Nat → Nat) (l : List (Nat × T)) (output : List T) : List T :=
  l.foldl (fun out p => out.set (f p.1) p.2) output

/-- `Image::remap_positions(f)`: clone the data into `output`, write
`output[f(i)] = data[i]` for every `i` in order, replace the data. -/
def remap_positions (img : Image T) (f : Nat → Nat) : Image T :=
  { img with data := writeAll f img.data.enum img.data }

end Image

namespace HilbertCurve

/-- `HilbertCurve::rotate(pos, check, value)`. -/
def rotate (pos check : Pos2) (value : Nat) : Pos2 :=
  if check.y ≠ 0 then pos
  else
    let pos := if check.x = 1 then Pos2.mk (value - 1 - pos.x) (value - 1 - pos.y)
      else pos
    Pos2.mk pos.y pos.x

/-- The `while current > 0 { current /= 2; order += 1; }` loop of
`HilbertCurve::new`, returning the final `(current, order)`. -/
def newLoop (n : Nat) : Nat × Nat :=
  if h : 0 < n then
    let r := newLoop (n / 2)
    (r.1, r.2 + 1)
  else (n, 0)
decreasing_by exact Nat.div_lt_self h (by omega)

/-- `HilbertCurve::new(size)`, returning the computed `order`.
`none` models a panic: either the debug-mode underflow of `order -= 1`
(when the loop ran zero times, i.e. `size = 0`), or the explicit
`panic!("size must be a power of 2")` guarded by `current != 0`
(which, after this loop, can in fact never fire). -/
def new (size : Nat) : Option Nat :=
  let r := newLoop size
  if r.2 = 0 then none
  else if r.1 ≠ 0 then none
  else some (r.2 - 1)

/-- One iteration of the `value_to_point` loop at sub-square size `s`. -/
def v2pStep (s value : Nat) (pos : Pos2) : Pos2 :=
  let rx := (value / 2) &&& 1
  let ry := (value ^^^ rx) &&& 1
  let pos := rotate pos (Pos2.mk rx ry) s
  Pos2.mk (pos.x + s * rx) (pos.y + s * ry)

/-- The `value_to_point` loop: `k` iterations remain, the current
sub-square size is `s` (starting at `2^0 = 1` and doubling), and `value`
is divided by 4 after each step. -/
def valueToPointAux : Nat → Nat → Nat → Pos2 → Pos2
  | 0, _, _, pos => pos
  | k + 1, s, value, pos =>
    valueToPointAux k (2 * s) (value / 4) (v2pStep s value pos)

/-- `HilbertCurve::value_to_point(value)` for a curve of the given order. -/
def value_to_point (order value : Nat) : Pos2 :=
  valueToPointAux order 1 value (Pos2.mk 0 0)

/-- The `point_to_value` summation: bit-planes `k-1, ..., 0` remain to be
processed, `n = 2^order` is the fixed rotation size. -/
def pointToValueAux (n : Nat) : Nat → Pos2 → Nat
  | 0, _ => 0
  | k + 1, pos =>
    let s := 2 ^ k
    let rx := if pos.x &&& s > 0 then 1 else 0
    let ry := if pos.y &&& s > 0 then 1 else 0
    s * s * ((3 * rx) ^^^ ry) + pointToValueAux n k (rotate pos (Pos2.mk rx ry) n)

/-- `HilbertCurve::point_to_value(pos)` for a curve of the given order. -/
def point_to_value (order : Nat) (pos : Pos2) : Nat :=
  pointToValueAux (2 ^ order) order pos

end HilbertCurve

namespace Image

variable {T : Type}

/-- `Image::unhilbertify`: `none` models the `assert_eq!(width, height)`
failure or a `HilbertCurve::new` panic. -/
def unhilbertify (img : Image T) : Option (Image T) :=
  if img.width = img.height then
    (HilbertCurve.new img.width).map fun order =>
      img.remap_positions fun index =>
        to_index_assoc img.width (HilbertCurve.value_to_point order index)
  else none

/-- `Image::hilbertify`: `none` models the `assert_eq!(width, height)`
failure or a `HilbertCurve::new` panic. -/
def hilbertify (img : Image T) : Option (Image T) :=
  if img.width = img.height then
    (HilbertCurve.new img.width).map fun order =>
      img.remap_positions fun index =>
        HilbertCurve.point_to_value order (index_to_pos_assoc img.width index)
  else none

end Image

/-- `put_points(image, bytes)`: for every adjacent pair `(x, y)` of
`bytes` (i.e. `bytes.iter().zip(bytes.iter().skip(1))`), increment
`image[Pos2{x, y}]`.  The read-modify-write of `image[pos] += 1` is the
`Index`/`IndexMut` access at linear index `to_index(pos)`; u32 counters
are modelled as `Nat`. -/
def put_points (image : Image Nat) (bytes : List Nat) : Image Nat :=
  (bytes.zip (bytes.drop 1)).foldl
    (fun im p =>
      let i := im.to_index (Pos2.mk p.1 p.2)
      { im with data := im.data.set i (im.data.getD i 0 + 1) })
    image

/-! ### Lemmas about `remap_positions` -/

namespace Image

variable {T : Type}

theorem length_writeAll (f : Nat → Nat) (l : List (Nat × T)) (output : List T) :
    (writeAll f l output).length = output.length := by
  induction l generalizing output with
  | nil => rfl
  | cons p l ih =>
    rw [writeAll, List.foldl_cons, ← writeAll, ih, List.length_set]

theorem writeAll_getElem?_of_not_written (f : Nat → Nat) (l : List (Nat × T))
    (output : List T) (j : Nat) (h : ∀ p ∈ l, f p.1 ≠ j) :
    (writeAll f l output)[j]? = output[j]? := by
  induction l generalizing output with
  | nil => rfl
  | cons p l ih =>
    rw [writeAll, List.foldl_cons, ← writeAll,
      ih _ (fun q hq => h q (List.mem_cons_of_mem _ hq)),
      List.getElem?_set_ne (h p (List.mem_cons_self _ _))]

theorem writeAll_enumFrom_getElem? (f : Nat → Nat) (data : List T) :
    ∀ (n : Nat) (output : List T) (i : Nat) (hi : i < data.length),
      f (n + i) < output.length →
      (∀ m, m < data.length → n + m ≠ n + i → f (n + m) ≠ f (n + i)) →
      (writeAll f (data.enumFrom n) output)[f (n + i)]? = some data[i] := by
  induction data with
  | nil => intro n output i hi; exact absurd hi (by simp)
  | cons a rest ih =>
    intro n output i hi hlt hinj
    rw [show List.enumFrom n (a :: rest) = (n, a) :: List.enumFrom (n + 1) rest
        from rfl,
      writeAll, List.foldl_cons, ← writeAll]
    match i with
    | 0 =>
      have hnw : ∀ p ∈ List.enumFrom (n + 1) rest, f p.1 ≠ f (n + 0) := by
        rw [List.forall_mem_enumFrom]
        intro m hm
        have h1 : n + 1 + m = n + (m + 1) := by omega
        simpa [h1] using hinj (m + 1) (by simpa using hm) (by omega)
      rw [writeAll_getElem?_of_not_written _ _ _ _ hnw]
      exact List.getElem?_set_self (by simpa using hlt)
    | i' + 1 =>
      have hrw : n + (i' + 1) = (n + 1) + i' := by omega
      have hres := ih (n + 1) (output.set (f n) a) i'
        (by simpa using hi)
        (by rw [List.length_set, ← hrw]; exact hlt)
        (by
          intro m hm hne
          have h1 : n + (m + 1) = n + 1 + m := by omega
          have h2 : n + (i' + 1) = n + 1 + i' := by omega
          have := hinj (m + 1) (by simpa using hm) (by omega)
          rwa [h1, h2] at this)
      rw [hrw, hres]
      simp

theorem remap_positions_length (img : Image T) (f : Nat → Nat) :
    (img.remap_positions f).data.length = img.data.length :=
  length_writeAll f img.data.enum img.data

theorem remap_positions_getElem?_eq (img : Image T) (f : Nat → Nat)
    (hrange : ∀ i, i < img.data.length → f i < img.data.length)
    (hinj : ∀ i, i < img.data.length → ∀ j, j < img.data.length →
      f i = f j → i = j)
    (i : Nat) (hi : i < img.data.length) :
    (img.remap_positions f).data[f i]? = img.data[i]? := by
  have h := writeAll_enumFrom_getElem? f img.data 0 img.data i hi
    (by simpa using hrange i hi)
    (by
      intro m hm hne hfeq
      simp only [Nat.zero_add] at hne hfeq
      exact hne (by rw [hinj m hm i hi hfeq]))
  simp only [Nat.zero_add] at h
  show (writeAll f img.data.enum img.data)[f i]? = img.data[i]?
  rw [show img.data.enum = img.data.enumFrom 0 from rfl, h,
    List.getElem?_eq_getElem hi]

end Image

/-- C6: for every grid and every `f` that is a bijection on
`[0, width*height)` (it maps the range into itself and is injective on
it), `remap_positions` produces a backing buffer of unchanged length in
which, for every linear index `i` of the domain, the value formerly at
index `i` now sits at index `f i` — each destination value is the
original (snapshot) value, moved, not combined. -/
theorem Image.remap_positions_relocates {T : Type} (img : Image T) (f : Nat → Nat)
    (hlen : img.data.length = img.width * img.height)
    (hrange : ∀ i, i < img.width * img.height → f i < img.width * img.height)
    (hinj : ∀ i, i < img.width * img.height → ∀ j, j < img.width * img.height →
      f i = f j → i = j) :
    (img.remap_positions f).data.length = img.data.length ∧
    ∀ i, i < img.width * img.height →
      (img.remap_positions f).data[f i]? = img.data[i]? := by
  refine ⟨remap_positions_length img f, fun i hi => ?_⟩
  exact remap_positions_getElem?_eq img f
    (fun j hj => by rw [hlen] at hj ⊢; exact hrange j hj)
    (fun a ha b hb => by rw [hlen] at ha hb; exact hinj a ha b hb)
    i (by omega)

theorem Image.remap_positions_relocates_witness :
    ((Image.mk [1, 2, 3] 3 1).remap_positions (fun i => (i + 1) % 3)).data[2]?
      = some (2 : Nat) := by
  have h := Image.remap_positions_relocates (Image.mk [1, 2, 3] 3 1)
    (fun i => (i + 1) % 3) (by decide) (by decide) (by decide)
  simpa using h.2 1 (by decide)

/-- C10: after `remap_positions` with an index mapping `f` sending
`[0, width*height)` into itself (not necessarily surjectively), any
destination index `j` that `f` never hits still holds the grid's original
value at `j`, because the output buffer starts as a copy of the source. -/
theorem Image.remap_positions_preserves_unhit {T : Type} (img : Image T)
    (f : Nat → Nat)
    (hlen : img.data.length = img.width * img.height)
    (hrange : ∀ i, i < img.width * img.height → f i < img.width * img.height)
    (j : Nat) (hj : ∀ i, i < img.width * img.height → f i ≠ j) :
    (img.remap_positions f).data[j]? = img.data[j]? := by
  show (Image.writeAll f img.data.enum img.data)[j]? = img.data[j]?
  apply Image.writeAll_getElem?_of_not_written
  rw [List.forall_mem_enum]
  intro i hi
  exact hj i (hlen ▸ hi)

theorem Image.remap_positions_preserves_unhit_witness :
    ((Image.mk [5, 6] 2 1).remap_positions (fun _ => 0)).data[1]?
      = some (6 : Nat) := by
  have h := Image.remap_positions_preserves_unhit (Image.mk [5, 6] 2 1)
    (fun _ => 0) (by decide) (by decide) 1 (by decide)
  simpa using h

/-! ### Lemmas about the Hilbert curve -/

namespace HilbertCurve

theorem rotate_00 (pos : Pos2) (v : Nat) :
    rotate pos (Pos2.mk 0 0) v = Pos2.mk pos.y pos.x := rfl

theorem rotate_01 (pos : Pos2) (v : Nat) :
    rotate pos (Pos2.mk 0 1) v = pos := rfl

theorem rotate_11 (pos : Pos2) (v : Nat) :
    rotate pos (Pos2.mk 1 1) v = pos := rfl

theorem rotate_10 (pos : Pos2) (v : Nat) :
    rotate pos (Pos2.mk 1 0) v = Pos2.mk (v - 1 - pos.y) (v - 1 - pos.x) := rfl

theorem v2pStep_spec0 (s value : Nat) (pos : Pos2) (h : value % 4 = 0) :
    v2pStep s value pos = Pos2.mk pos.y pos.x := by
  have hrx : (value / 2) &&& 1 = 0 := by rw [Nat.and_one_is_mod]; omega
  have hry : value &&& 1 = 0 := by rw [Nat.and_one_is_mod]; omega
  simp only [v2pStep, hrx, Nat.xor_zero, hry, rotate_00]
  simp

theorem v2pStep_spec1 (s value : Nat) (pos : Pos2) (h : value % 4 = 1) :
    v2pStep s value pos = Pos2.mk pos.x (pos.y + s) := by
  have hrx : (value / 2) &&& 1 = 0 := by rw [Nat.and_one_is_mod]; omega
  have hry : value &&& 1 = 1 := by rw [Nat.and_one_is_mod]; omega
  simp only [v2pStep, hrx, Nat.xor_zero, hry, rotate_01]
  simp [Nat.add_comm]

theorem v2pStep_spec2 (s value : Nat) (pos : Pos2) (h : value % 4 = 2) :
    v2pStep s value pos = Pos2.mk (pos.x + s) (pos.y + s) := by
  have hrx : (value / 2) &&& 1 = 1 := by rw [Nat.and_one_is_mod]; omega
  have hry : (value ^^^ 1) &&& 1 = 1 := by
    rw [Nat.and_xor_distrib_right, Nat.and_one_is_mod, Nat.and_one_is_mod,
      show value % 2 = 0 from by omega]
    rfl
  simp only [v2pStep, hrx, hry, rotate_11]
  simp

theorem v2pStep_spec3 (s value : Nat) (pos : Pos2) (h : value % 4 = 3) :
    v2pStep s value pos = Pos2.mk (s - 1 - pos.y + s) (s - 1 - pos.x) := by
  have hrx : (value / 2) &&& 1 = 1 := by rw [Nat.and_one_is_mod]; omega
  have hry : (value ^^^ 1) &&& 1 = 0 := by
    rw [Nat.and_xor_distrib_right, Nat.and_one_is_mod, Nat.and_one_is_mod,
      show value % 2 = 1 from by omega]
    rfl
  simp only [v2pStep, hrx, hry, rotate_10]
  simp

theorem v2pStep_mod4 (s value : Nat) (pos : Pos2) :
    v2pStep s (value % 4) pos = v2pStep s value pos := by
  rcases (by omega : value % 4 = 0 ∨ value % 4 = 1 ∨ value % 4 = 2 ∨
      value % 4 = 3) with h | h | h | h
  · rw [v2pStep_spec0 s value pos h, v2pStep_spec0 s (value % 4) pos (by omega)]
  · rw [v2pStep_spec1 s value pos h, v2pStep_spec1 s (value % 4) pos (by omega)]
  · rw [v2pStep_spec2 s value pos h, v2pStep_spec2 s (value % 4) pos (by omega)]
  · rw [v2pStep_spec3 s value pos h, v2pStep_spec3 s (value % 4) pos (by omega)]

theorem valueToPointAux_succ (k : Nat) :
    ∀ (s value : Nat) (pos : Pos2),
      valueToPointAux (k + 1) s value pos
        = v2pStep (2 ^ k * s) (value / 4 ^ k) (valueToPointAux k s value pos) := by
  induction k with
  | zero => intro s value pos; simp [valueToPointAux]
  | succ k ih =>
    intro s value pos
    rw [show valueToPointAux (k + 1 + 1) s value pos
        = valueToPointAux (k + 1) (2 * s) (value / 4) (v2pStep s value pos)
        from rfl,
      ih,
      show valueToPointAux (k + 1) s value pos
        = valueToPointAux k (2 * s) (value / 4) (v2pStep s value pos) from rfl,
      Nat.div_div_eq_div_mul,
      show 4 * 4 ^ k = 4 ^ (k + 1) from by ring,
      show 2 ^ k * (2 * s) = 2 ^ (k + 1) * s from by ring]

theorem valueToPointAux_mod (k : Nat) :
    ∀ (s value : Nat) (pos : Pos2),
      valueToPointAux k s (value % 4 ^ k) pos = valueToPointAux k s value pos := by
  induction k with
  | zero => intro s value pos; rfl
  | succ k ih =>
    intro s value pos
    rw [show valueToPointAux (k + 1) s value pos
        = valueToPointAux k (2 * s) (value / 4) (v2pStep s value pos) from rfl,
      show valueToPointAux (k + 1) s (value % 4 ^ (k + 1)) pos
        = valueToPointAux k (2 * s) (value % 4 ^ (k + 1) / 4)
            (v2pStep s (value % 4 ^ (k + 1)) pos) from rfl]
    have h1 : v2pStep s (value % 4 ^ (k + 1)) pos = v2pStep s value pos := by
      rw [← v2pStep_mod4 s (value % 4 ^ (k + 1)) pos,
        Nat.mod_mod_of_dvd value (by exact Dvd.intro (4 ^ k) (by ring)),
        v2pStep_mod4]
    have h2 : value % 4 ^ (k + 1) / 4 = value / 4 % 4 ^ k := by
      rw [show (4 : Nat) ^ (k + 1) = 4 * 4 ^ k from by ring,
        Nat.mod_mul_right_div_self]
    rw [h1, h2, ih]

theorem indicator_and_two_pow (k a b : Nat) (ha : a < 2 ^ k) (hb : b ≤ 1) :
    (if (a + 2 ^ k * b) &&& 2 ^ k > 0 then 1 else 0) = b := by
  have hdiv : (a + 2 ^ k * b) / 2 ^ k = b := by
    rw [Nat.add_mul_div_left _ _ (pow_pos (by omega) k),
      Nat.div_eq_of_lt ha, Nat.zero_add]
  have ht : (a + 2 ^ k * b).testBit k = decide (b % 2 = 1) := by
    rw [Nat.testBit_to_div_mod, hdiv]
  rw [Nat.and_two_pow, ht]
  rcases (by omega : b = 0 ∨ b = 1) with h | h <;> subst h
  · simp
  · simpa using pow_pos (by omega : (0 : Nat) < 2) k

theorem indicator_mod_succ (k x : Nat) :
    (if (x % 2 ^ (k + 1)) &&& 2 ^ k > 0 then 1 else 0)
      = (if x &&& 2 ^ k > 0 then 1 else 0) := by
  rw [Nat.and_two_pow, Nat.and_two_pow, Nat.testBit_mod_two_pow]
  simp [Nat.lt_succ_self]

theorem two_pow_sub_one_sub_mod (i j y : Nat) (hij : j ≤ i) (hy : y < 2 ^ i) :
    (2 ^ i - 1 - y) % 2 ^ j = 2 ^ j - 1 - y % 2 ^ j := by
  have hP : 0 < 2 ^ j := pow_pos (by omega) j
  have hQ : 0 < 2 ^ (i - j) := pow_pos (by omega) (i - j)
  have hsplit : 2 ^ i = 2 ^ (i - j) * 2 ^ j := by
    rw [← pow_add]; congr 1; omega
  have hq : y / 2 ^ j < 2 ^ (i - j) := by
    rw [Nat.div_lt_iff_lt_mul hP, ← hsplit]; exact hy
  have hmod : y % 2 ^ j < 2 ^ j := Nat.mod_lt _ hP
  have hdm : 2 ^ j * (y / 2 ^ j) + y % 2 ^ j = y := Nat.div_add_mod y (2 ^ j)
  have key : 2 ^ i - 1 - y
      = (2 ^ (i - j) - 1 - y / 2 ^ j) * 2 ^ j + (2 ^ j - 1 - y % 2 ^ j) := by
    rw [hsplit] at hy ⊢
    have h1 : 1 ≤ 2 ^ (i - j) * 2 ^ j := Nat.mul_pos hQ hP
    have hy1 : y ≤ 2 ^ (i - j) * 2 ^ j - 1 := by omega
    have hq1 : y / 2 ^ j ≤ 2 ^ (i - j) - 1 := by omega
    have hr1 : y % 2 ^ j ≤ 2 ^ j - 1 := by omega
    zify [h1, hy1, hq1, hr1, hP, hQ]
    have hdm2 := hdm
    zify at hdm2
    linear_combination hdm2
  rw [key, Nat.mul_comm (2 ^ (i - j) - 1 - y / 2 ^ j) (2 ^ j),
    Nat.mul_add_mod, Nat.mod_eq_of_lt (by omega)]

theorem pointToValueAux_mod (k : Nat) :
    ∀ (m : Nat), k ≤ m → ∀ (x y : Nat), x < 2 ^ m → y < 2 ^ m →
      pointToValueAux (2 ^ m) k (Pos2.mk x y)
        = pointToValueAux (2 ^ k) k (Pos2.mk (x % 2 ^ k) (y % 2 ^ k)) := by
  induction k with
  | zero => intros; rfl
  | succ k ih =>
    intro m hkm x y hx hy
    have hpow : (0 : Nat) < 2 ^ k := pow_pos (by omega) k
    have hpows : (0 : Nat) < 2 ^ (k + 1) := pow_pos (by omega) (k + 1)
    have hpowm : (0 : Nat) < 2 ^ m := pow_pos (by omega) m
    have hdvd : (2 : Nat) ^ k ∣ 2 ^ (k + 1) := ⟨2, by ring⟩
    have hxm : x % 2 ^ (k + 1) < 2 ^ (k + 1) := Nat.mod_lt _ hpows
    have hym : y % 2 ^ (k + 1) < 2 ^ (k + 1) := Nat.mod_lt _ hpows
    simp only [pointToValueAux, indicator_mod_succ]
    rcases Nat.eq_zero_or_pos (x &&& 2 ^ k) with hbx | hbx <;>
      rcases Nat.eq_zero_or_pos (y &&& 2 ^ k) with hby | hby
    · -- bits (0, 0): swap
      simp only [hbx, hby, Nat.lt_irrefl, if_false, rotate_00]
      rw [ih m (by omega) y x hy hx,
        ih (k + 1) (by omega) (y % 2 ^ (k + 1)) (x % 2 ^ (k + 1)) hym hxm,
        Nat.mod_mod_of_dvd y hdvd, Nat.mod_mod_of_dvd x hdvd]
    · -- bits (0, 1): identity rotation
      simp only [hbx, hby, Nat.lt_irrefl, if_false, if_true, rotate_01]
      rw [ih m (by omega) x y hx hy,
        ih (k + 1) (by omega) (x % 2 ^ (k + 1)) (y % 2 ^ (k + 1)) hxm hym,
        Nat.mod_mod_of_dvd y hdvd, Nat.mod_mod_of_dvd x hdvd]
    · -- bits (1, 0): reflect and swap
      simp only [hbx, hby, Nat.lt_irrefl, if_false, if_true, rotate_10]
      rw [ih m (by omega) (2 ^ m - 1 - y) (2 ^ m - 1 - x) (by omega) (by omega),
        ih (k + 1) (by omega) (2 ^ (k + 1) - 1 - y % 2 ^ (k + 1))
          (2 ^ (k + 1) - 1 - x % 2 ^ (k + 1)) (by omega) (by omega),
        two_pow_sub_one_sub_mod m k y (by omega) hy,
        two_pow_sub_one_sub_mod m k x (by omega) hx,
        two_pow_sub_one_sub_mod (k + 1) k (y % 2 ^ (k + 1)) (by omega) hym,
        two_pow_sub_one_sub_mod (k + 1) k (x % 2 ^ (k + 1)) (by omega) hxm,
        Nat.mod_mod_of_dvd y hdvd, Nat.mod_mod_of_dvd x hdvd]
    · -- bits (1, 1): identity rotation
      simp only [hbx, hby, if_true, rotate_11]
      rw [ih m (by omega) x y hx hy,
        ih (k + 1) (by omega) (x % 2 ^ (k + 1)) (y % 2 ^ (k + 1)) hxm hym,
        Nat.mod_mod_of_dvd y hdvd, Nat.mod_mod_of_dvd x hdvd]

theorem indicator_lt (k a : Nat) (ha : a < 2 ^ k) :
    (if a &&& 2 ^ k > 0 then 1 else 0) = 0 := by
  simpa using indicator_and_two_pow k a 0 ha (by omega)

theorem indicator_ge (k a : Nat) (ha : a < 2 ^ k) :
    (if (a + 2 ^ k) &&& 2 ^ k > 0 then 1 else 0) = 1 := by
  simpa using indicator_and_two_pow k a 1 ha (by omega)

theorem roundtrip_step (k d r px py : Nat) (hd : d < 4) (hr : r < 4 ^ k)
    (hpx : px < 2 ^ k) (hpy : py < 2 ^ k)
    (hpv : pointToValueAux (2 ^ k) k (Pos2.mk px py) = r) :
    (v2pStep (2 ^ k) d (Pos2.mk px py)).x < 2 ^ (k + 1) ∧
    (v2pStep (2 ^ k) d (Pos2.mk px py)).y < 2 ^ (k + 1) ∧
    pointToValueAux (2 ^ (k + 1)) (k + 1) (v2pStep (2 ^ k) d (Pos2.mk px py))
      = d * 4 ^ k + r := by
  have h2 : (2 : Nat) ^ (k + 1) = 2 * 2 ^ k := by ring
  have hpow : (0 : Nat) < 2 ^ k := pow_pos (by omega) k
  have h4k : (2 : Nat) ^ k * 2 ^ k = 4 ^ k := by
    rw [← Nat.mul_pow]
  rcases (by omega : d = 0 ∨ d = 1 ∨ d = 2 ∨ d = 3) with h | h | h | h <;> subst h
  · -- quadrant 0: swap, no offset
    rw [v2pStep_spec0 _ _ _ (by omega)]
    refine ⟨show py < 2 ^ (k + 1) from by omega,
      show px < 2 ^ (k + 1) from by omega, ?_⟩
    simp only [pointToValueAux, indicator_lt k py hpy, indicator_lt k px hpx,
      rotate_00]
    rw [pointToValueAux_mod k (k + 1) (by omega) px py (by omega) (by omega),
      Nat.mod_eq_of_lt hpx, Nat.mod_eq_of_lt hpy, hpv]
    simp
  · -- quadrant 1: offset in y
    rw [v2pStep_spec1 _ _ _ (by omega)]
    refine ⟨show px < 2 ^ (k + 1) from by omega,
      show py + 2 ^ k < 2 ^ (k + 1) from by omega, ?_⟩
    simp only [pointToValueAux, indicator_lt k px hpx, indicator_ge k py hpy,
      rotate_01]
    rw [pointToValueAux_mod k (k + 1) (by omega) px (py + 2 ^ k) (by omega)
        (by omega),
      Nat.mod_eq_of_lt hpx, Nat.add_mod_right, Nat.mod_eq_of_lt hpy, hpv,
      show ((3 * 0) ^^^ 1 : Nat) = 1 from by decide,
      Nat.mul_one, h4k, Nat.one_mul]
  · -- quadrant 2: offset in both
    rw [v2pStep_spec2 _ _ _ (by omega)]
    refine ⟨show px + 2 ^ k < 2 ^ (k + 1) from by omega,
      show py + 2 ^ k < 2 ^ (k + 1) from by omega, ?_⟩
    simp only [pointToValueAux, indicator_ge k px hpx, indicator_ge k py hpy,
      rotate_11]
    rw [pointToValueAux_mod k (k + 1) (by omega) (px + 2 ^ k) (py + 2 ^ k)
        (by omega) (by omega),
      Nat.add_mod_right, Nat.add_mod_right,
      Nat.mod_eq_of_lt hpx, Nat.mod_eq_of_lt hpy, hpv,
      show ((3 * 1) ^^^ 1 : Nat) = 2 from by decide, h4k]
    ring
  · -- quadrant 3: reflect, swap, offset in x
    rw [v2pStep_spec3 _ _ _ (by omega)]
    refine ⟨show 2 ^ k - 1 - py + 2 ^ k < 2 ^ (k + 1) from by omega,
      show 2 ^ k - 1 - px < 2 ^ (k + 1) from by omega, ?_⟩
    simp only [pointToValueAux, indicator_ge k (2 ^ k - 1 - py) (by omega),
      indicator_lt k (2 ^ k - 1 - px) (by omega), rotate_10]
    rw [show 2 ^ (k + 1) - 1 - (2 ^ k - 1 - px) = 2 ^ k + px from by omega,
      show 2 ^ (k + 1) - 1 - (2 ^ k - 1 - py + 2 ^ k) = py from by omega,
      pointToValueAux_mod k (k + 1) (by omega) (2 ^ k + px) py
        (by omega) (by omega),
      Nat.add_mod_left, Nat.mod_eq_of_lt hpx, Nat.mod_eq_of_lt hpy, hpv,
      show ((3 * 1) ^^^ 0 : Nat) = 3 from by decide, h4k]
    ring

theorem value_to_point_spec (k : Nat) :
    ∀ v, v < 4 ^ k →
      (value_to_point k v).x < 2 ^ k ∧ (value_to_point k v).y < 2 ^ k ∧
      point_to_value k (value_to_point k v) = v := by
  induction k with
  | zero =>
    intro v hv
    have hz : v = 0 := by omega
    subst hz
    exact ⟨by decide, by decide, rfl⟩
  | succ k ih =>
    intro v hv
    have h4 : (0 : Nat) < 4 ^ k := pow_pos (by omega) k
    have hd : v / 4 ^ k < 4 := by
      rw [Nat.div_lt_iff_lt_mul h4]
      calc v < 4 ^ (k + 1) := hv
        _ = 4 * 4 ^ k := by ring
    obtain ⟨hpx, hpy, hpv⟩ := ih (v % 4 ^ k) (Nat.mod_lt _ h4)
    have hunf : value_to_point (k + 1) v
        = v2pStep (2 ^ k) (v / 4 ^ k) (value_to_point k (v % 4 ^ k)) := by
      rw [value_to_point, valueToPointAux_succ k 1 v (Pos2.mk 0 0), Nat.mul_one,
        ← valueToPointAux_mod k 1 v (Pos2.mk 0 0)]
      rfl
    have hstep := roundtrip_step k (v / 4 ^ k) (v % 4 ^ k)
      (value_to_point k (v % 4 ^ k)).x (value_to_point k (v % 4 ^ k)).y
      hd (Nat.mod_lt _ h4) hpx hpy hpv
    rw [hunf]
    refine ⟨hstep.1, hstep.2.1, ?_⟩
    have h3 := hstep.2.2
    rw [Nat.div_add_mod' v (4 ^ k)] at h3
    exact h3

/-- C1: for every order (including 0), with `n = 2^order`, and every `v`
in `[0, n*n)`, `point_to_value (value_to_point v) = v`. -/
theorem hilbert_roundtrip (order v : Nat)
    (hv : v < 2 ^ order * 2 ^ order) :
    point_to_value order (value_to_point order v) = v := by
  have hp : (4 : Nat) ^ order = 2 ^ order * 2 ^ order := by
    rw [show (4 : Nat) = 2 * 2 from rfl, Nat.mul_pow]
  exact (value_to_point_spec order v (by omega)).2.2

theorem hilbert_roundtrip_witness :
    7 < 2 ^ 2 * 2 ^ 2 ∧ point_to_value 2 (value_to_point 2 7) = 7 :=
  ⟨by decide, hilbert_roundtrip 2 7 (by decide)⟩

/-- C2: with `n = 2^order`, `value_to_point` maps every `v` in `[0, n*n)`
to a point inside `[0,n) × [0,n)`, and is injective on that domain (hence
its image consists of `n*n` distinct in-range points). -/
theorem hilbert_bijection (order : Nat) :
    (∀ v, v < 2 ^ order * 2 ^ order →
      (value_to_point order v).x < 2 ^ order ∧
      (value_to_point order v).y < 2 ^ order) ∧
    (∀ v w, v < 2 ^ order * 2 ^ order → w < 2 ^ order * 2 ^ order →
      value_to_point order v = value_to_point order w → v = w) := by
  have hp : (4 : Nat) ^ order = 2 ^ order * 2 ^ order := by
    rw [show (4 : Nat) = 2 * 2 from rfl, Nat.mul_pow]
  constructor
  · intro v hv
    obtain ⟨h1, h2, _⟩ := value_to_point_spec order v (by omega)
    exact ⟨h1, h2⟩
  · intro v w hv hw heq
    have h1 := (value_to_point_spec order v (by omega)).2.2
    have h2 := (value_to_point_spec order w (by omega)).2.2
    rw [← h1, ← h2, heq]

theorem hilbert_bijection_witness :
    (value_to_point 3 11).x < 2 ^ 3 ∧ (value_to_point 3 11).y < 2 ^ 3 :=
  (hilbert_bijection 3).1 11 (by decide)

theorem newLoop_zero : newLoop 0 = (0, 0) := by
  rw [newLoop]
  simp

theorem newLoop_pos (n : Nat) (h : 0 < n) :
    newLoop n = ((newLoop (n / 2)).1, (newLoop (n / 2)).2 + 1) := by
  rw [newLoop]
  simp [h]

theorem newLoop_two_pow (k : Nat) : newLoop (2 ^ k) = (0, k + 1) := by
  induction k with
  | zero =>
    rw [show (2 : Nat) ^ 0 = 1 from rfl, newLoop_pos 1 (by omega),
      show (1 : Nat) / 2 = 0 from rfl, newLoop_zero]
  | succ k ih =>
    rw [newLoop_pos _ (pow_pos (by omega) _),
      show (2 : Nat) ^ (k + 1) / 2 = 2 ^ k from by
        rw [pow_succ]; exact Nat.mul_div_cancel _ (by omega),
      ih]

theorem new_two_pow (k : Nat) : new (2 ^ k) = some k := by
  simp [new, newLoop_two_pow]

theorem value_to_point_surj (order px py : Nat)
    (hx : px < 2 ^ order) (hy : py < 2 ^ order) :
    ∃ v, v < 4 ^ order ∧ value_to_point order v = Pos2.mk px py := by
  let F : Fin (4 ^ order) → Fin (2 ^ order) × Fin (2 ^ order) := fun v =>
    (⟨(value_to_point order v.val).x, (value_to_point_spec order v.val v.isLt).1⟩,
     ⟨(value_to_point order v.val).y,
       (value_to_point_spec order v.val v.isLt).2.1⟩)
  have hinj : Function.Injective F := by
    intro a b hab
    have hx' : (value_to_point order a.val).x = (value_to_point order b.val).x :=
      congrArg (fun t => t.1.val) hab
    have hy' : (value_to_point order a.val).y = (value_to_point order b.val).y :=
      congrArg (fun t => t.2.val) hab
    have hxy : value_to_point order a.val = value_to_point order b.val := by
      rw [show value_to_point order a.val
          = Pos2.mk (value_to_point order a.val).x (value_to_point order a.val).y
          from rfl, hx', hy']
    have h1 := (value_to_point_spec order a.val a.isLt).2.2
    have h2 := (value_to_point_spec order b.val b.isLt).2.2
    apply Fin.ext
    rw [← h1, ← h2, hxy]
  have hbij : Function.Bijective F := by
    rw [Fintype.bijective_iff_injective_and_card]
    refine ⟨hinj, ?_⟩
    simp [show (4 : Nat) ^ order = 2 ^ order * 2 ^ order from by
      rw [show (4 : Nat) = 2 * 2 from rfl, Nat.mul_pow]]
  obtain ⟨v, hv⟩ := hbij.2 (⟨px, hx⟩, ⟨py, hy⟩)
  refine ⟨v.val, v.isLt, ?_⟩
  have h1 : (value_to_point order v.val).x = px := congrArg (fun t => t.1.val) hv
  have h2 : (value_to_point order v.val).y = py := congrArg (fun t => t.2.val) hv
  rw [show value_to_point order v.val
      = Pos2.mk (value_to_point order v.val).x (value_to_point order v.val).y
      from rfl, h1, h2]

theorem point_to_value_spec (order px py : Nat)
    (hx : px < 2 ^ order) (hy : py < 2 ^ order) :
    point_to_value order (Pos2.mk px py) < 4 ^ order ∧
    value_to_point order (point_to_value order (Pos2.mk px py)) = Pos2.mk px py := by
  obtain ⟨v, hv, heq⟩ := value_to_point_surj order px py hx hy
  rw [← heq, (value_to_point_spec order v hv).2.2]
  exact ⟨hv, rfl⟩

end HilbertCurve

/-! ### Grid round-trip through the curve -/

theorem Image_ext {T : Type} (a b : Image T) (hd : a.data = b.data)
    (hw : a.width = b.width) (hh : a.height = b.height) : a = b := by
  cases a
  cases b
  simp only [Image.mk.injEq]
  exact ⟨hd, hw, hh⟩

theorem Image.remap_positions_width {T : Type} (img : Image T) (f : Nat → Nat) :
    (img.remap_positions f).width = img.width := rfl

theorem Image.remap_positions_height {T : Type} (img : Image T) (f : Nat → Nat) :
    (img.remap_positions f).height = img.height := rfl

theorem hilbert_f_range (k i : Nat) (hi : i < 2 ^ k * 2 ^ k) :
    HilbertCurve.point_to_value k (Image.index_to_pos_assoc (2 ^ k) i)
      < 2 ^ k * 2 ^ k := by
  have hn : (0 : Nat) < 2 ^ k := pow_pos (by omega) k
  have h4 : (4 : Nat) ^ k = 2 ^ k * 2 ^ k := by
    rw [show (4 : Nat) = 2 * 2 from rfl, Nat.mul_pow]
  have hx : i % 2 ^ k < 2 ^ k := Nat.mod_lt _ hn
  have hyy : i / 2 ^ k < 2 ^ k := by
    rw [Nat.div_lt_iff_lt_mul hn]; exact hi
  have := (HilbertCurve.point_to_value_spec k (i % 2 ^ k) (i / 2 ^ k) hx hyy).1
  rw [Image.index_to_pos_assoc]
  omega

theorem hilbert_gf_id (k i : Nat) (hi : i < 2 ^ k * 2 ^ k) :
    Image.to_index_assoc (2 ^ k)
      (HilbertCurve.value_to_point k
        (HilbertCurve.point_to_value k (Image.index_to_pos_assoc (2 ^ k) i)))
      = i := by
  have hn : (0 : Nat) < 2 ^ k := pow_pos (by omega) k
  have hx : i % 2 ^ k < 2 ^ k := Nat.mod_lt _ hn
  have hyy : i / 2 ^ k < 2 ^ k := by
    rw [Nat.div_lt_iff_lt_mul hn]; exact hi
  rw [Image.index_to_pos_assoc,
    (HilbertCurve.point_to_value_spec k (i % 2 ^ k) (i / 2 ^ k) hx hyy).2,
    Image.to_index_assoc]
  exact Nat.div_add_mod' i (2 ^ k)

theorem hilbert_g_range (k j : Nat) (hj : j < 2 ^ k * 2 ^ k) :
    Image.to_index_assoc (2 ^ k) (HilbertCurve.value_to_point k j)
      < 2 ^ k * 2 ^ k := by
  have h4 : (4 : Nat) ^ k = 2 ^ k * 2 ^ k := by
    rw [show (4 : Nat) = 2 * 2 from rfl, Nat.mul_pow]
  obtain ⟨hvx, hvy, _⟩ := HilbertCurve.value_to_point_spec k j (by omega)
  rw [Image.to_index_assoc]
  calc (HilbertCurve.value_to_point k j).y * 2 ^ k
        + (HilbertCurve.value_to_point k j).x
      < ((HilbertCurve.value_to_point k j).y + 1) * 2 ^ k := by
        rw [Nat.succ_mul]; omega
    _ ≤ 2 ^ k * 2 ^ k := Nat.mul_le_mul_right _ hvy

theorem hilbert_fg_id (k j : Nat) (hj : j < 2 ^ k * 2 ^ k) :
    HilbertCurve.point_to_value k (Image.index_to_pos_assoc (2 ^ k)
      (Image.to_index_assoc (2 ^ k) (HilbertCurve.value_to_point k j))) = j := by
  have hn : (0 : Nat) < 2 ^ k := pow_pos (by omega) k
  have h4 : (4 : Nat) ^ k = 2 ^ k * 2 ^ k := by
    rw [show (4 : Nat) = 2 * 2 from rfl, Nat.mul_pow]
  obtain ⟨hvx, hvy, hvv⟩ := HilbertCurve.value_to_point_spec k j (by omega)
  have hback : Image.index_to_pos_assoc (2 ^ k)
      (Image.to_index_assoc (2 ^ k) (HilbertCurve.value_to_point k j))
      = HilbertCurve.value_to_point k j := by
    rw [Image.to_index_assoc, Image.index_to_pos_assoc]
    have e1 : ((HilbertCurve.value_to_point k j).y * 2 ^ k
        + (HilbertCurve.value_to_point k j).x) % 2 ^ k
        = (HilbertCurve.value_to_point k j).x := by
      rw [Nat.mul_comm, Nat.mul_add_mod]
      exact Nat.mod_eq_of_lt hvx
    have e2 : ((HilbertCurve.value_to_point k j).y * 2 ^ k
        + (HilbertCurve.value_to_point k j).x) / 2 ^ k
        = (HilbertCurve.value_to_point k j).y := by
      rw [Nat.mul_comm, Nat.mul_add_div hn, Nat.div_eq_of_lt hvx, Nat.add_zero]
    rw [e1, e2]
  rw [hback, hvv]

/-- C5: for every square grid whose side length is a power of two,
applying `hilbertify` (curve order) and then `unhilbertify` (natural
order) reproduces the original grid exactly, at every coordinate. -/
theorem Image.hilbertify_unhilbertify {T : Type} (img : Image T) (k : Nat)
    (hw : img.width = 2 ^ k) (hsq : img.height = img.width)
    (hlen : img.data.length = img.width * img.height) :
    img.hilbertify.bind Image.unhilbertify = some img := by
  obtain ⟨d, w, h⟩ := img
  have hw' : w = 2 ^ k := hw
  subst hw'
  have hsq' : h = 2 ^ k := hsq
  subst hsq'
  have hlen' : d.length = 2 ^ k * 2 ^ k := hlen
  have h1 : (Image.mk d (2 ^ k) (2 ^ k)).hilbertify
      = some ((Image.mk d (2 ^ k) (2 ^ k)).remap_positions fun index =>
          HilbertCurve.point_to_value k (Image.index_to_pos_assoc (2 ^ k) index))
      := by
    simp only [Image.hilbertify, HilbertCurve.new_two_pow, Option.map_some',
      eq_self_iff_true, if_true]
  rw [h1, Option.some_bind]
  have h2 : ((Image.mk d (2 ^ k) (2 ^ k)).remap_positions fun index =>
        HilbertCurve.point_to_value k
          (Image.index_to_pos_assoc (2 ^ k) index)).unhilbertify
      = some (((Image.mk d (2 ^ k) (2 ^ k)).remap_positions fun index =>
          HilbertCurve.point_to_value k
            (Image.index_to_pos_assoc (2 ^ k) index)).remap_positions
          fun index =>
            Image.to_index_assoc (2 ^ k) (HilbertCurve.value_to_point k index))
      := by
    simp only [Image.unhilbertify, Image.remap_positions_width,
      Image.remap_positions_height, HilbertCurve.new_two_pow, Option.map_some',
      eq_self_iff_true, if_true]
  rw [h2]
  refine congrArg some ?_
  refine Image_ext _ _ ?_ rfl rfl
  apply List.ext_getElem?
  intro i
  have hYlen : ((Image.mk d (2 ^ k) (2 ^ k)).remap_positions fun index =>
      HilbertCurve.point_to_value k
        (Image.index_to_pos_assoc (2 ^ k) index)).data.length = d.length :=
    Image.remap_positions_length _ _
  by_cases hi : i < 2 ^ k * 2 ^ k
  · have hB := Image.remap_positions_getElem?_eq
      ((Image.mk d (2 ^ k) (2 ^ k)).remap_positions fun index =>
        HilbertCurve.point_to_value k (Image.index_to_pos_assoc (2 ^ k) index))
      (fun index =>
        Image.to_index_assoc (2 ^ k) (HilbertCurve.value_to_point k index))
      (by
        intro j hj
        rw [hYlen, hlen'] at hj ⊢
        exact hilbert_g_range k j hj)
      (by
        intro a ha b hb hab
        rw [hYlen, hlen'] at ha hb
        simp only at hab
        rw [← hilbert_fg_id k a ha, ← hilbert_fg_id k b hb, hab])
      (HilbertCurve.point_to_value k (Image.index_to_pos_assoc (2 ^ k) i))
      (by rw [hYlen, hlen']; exact hilbert_f_range k i hi)
    have hA := Image.remap_positions_getElem?_eq
      (Image.mk d (2 ^ k) (2 ^ k))
      (fun index =>
        HilbertCurve.point_to_value k (Image.index_to_pos_assoc (2 ^ k) index))
      (by
        intro j hj
        simp only [] at hj ⊢
        rw [hlen'] at hj ⊢
        exact hilbert_f_range k j hj)
      (by
        intro a ha b hb hab
        simp only [] at ha hb hab
        rw [hlen'] at ha hb
        rw [← hilbert_gf_id k a ha, ← hilbert_gf_id k b hb, hab])
      i (by simp only []; rw [hlen']; exact hi)
    simp only [] at hA hB
    rw [hilbert_gf_id k i hi] at hB
    rw [hB, hA]
  · have hglen : (((Image.mk d (2 ^ k) (2 ^ k)).remap_positions fun index =>
        HilbertCurve.point_to_value k
          (Image.index_to_pos_assoc (2 ^ k) index)).remap_positions
        fun index =>
          Image.to_index_assoc (2 ^ k)
            (HilbertCurve.value_to_point k index)).data.length = d.length := by
      rw [Image.remap_positions_length, hYlen]
    rw [List.getElem?_eq_none (by rw [hglen, hlen']; omega),
      List.getElem?_eq_none (by rw [hlen']; omega)]

theorem Image.hilbertify_unhilbertify_witness :
    (Image.hilbertify (Image.mk ([10, 20, 30, 40] : List Nat) 2 2)).bind
      Image.unhilbertify = some (Image.mk ([10, 20, 30, 40] : List Nat) 2 2) :=
  Image.hilbertify_unhilbertify (Image.mk ([10, 20, 30, 40] : List Nat) 2 2) 1
    rfl rfl rfl

/-! ### Lemmas about `put_points` -/

theorem to_index_inj (w a b c e : Nat) (ha : a < w) (hc : c < w)
    (h : b * w + a = e * w + c) : a = c ∧ b = e := by
  have h1 : (b * w + a) % w = (e * w + c) % w := by rw [h]
  rw [Nat.mul_comm b w, Nat.mul_add_mod, Nat.mul_comm e w, Nat.mul_add_mod,
    Nat.mod_eq_of_lt ha, Nat.mod_eq_of_lt hc] at h1
  subst h1
  refine ⟨rfl, ?_⟩
  have hw : 0 < w := by omega
  exact Nat.eq_of_mul_eq_mul_right hw (by omega : b * w = e * w)

theorem zip_shift_eq_range_map (bytes : List Nat) :
    bytes.zip (bytes.drop 1)
      = (List.range (bytes.length - 1)).map
          (fun i => (bytes.getD i 0, bytes.getD (i + 1) 0)) := by
  apply List.ext_getElem
  · rw [List.length_zip, List.length_drop, List.length_map, List.length_range]
    omega
  · intro i h1 h2
    have hlen : i < bytes.length - 1 := by
      rw [List.length_zip, List.length_drop] at h1
      omega
    have hb1 : i < bytes.length := by omega
    have hb2 : i + 1 < bytes.length := by omega
    rw [List.getElem_zip, List.getElem_map, List.getElem_range,
      List.getElem_drop, List.getD_eq_getElem bytes 0 hb1,
      List.getD_eq_getElem bytes 0 hb2]
    simp only [show 1 + i = i + 1 from by omega]

theorem put_points_fold_width (l : List (Nat × Nat)) :
    ∀ im : Image Nat,
      (l.foldl (fun im p =>
          let i := im.to_index (Pos2.mk p.1 p.2)
          { im with data := im.data.set i (im.data.getD i 0 + 1) }) im).width
        = im.width := by
  induction l with
  | nil => intro im; rfl
  | cons p l ih =>
    intro im
    rw [List.foldl_cons, ih]

theorem put_points_fold_length (l : List (Nat × Nat)) :
    ∀ im : Image Nat,
      (l.foldl (fun im p =>
          let i := im.to_index (Pos2.mk p.1 p.2)
          { im with data := im.data.set i (im.data.getD i 0 + 1) }) im).data.length
        = im.data.length := by
  induction l with
  | nil => intro im; rfl
  | cons p l ih =>
    intro im
    rw [List.foldl_cons, ih]
    exact List.length_set ..

theorem put_points_fold_getD (w hgt : Nat) (l : List (Nat × Nat)) :
    ∀ (dat : List Nat),
      (∀ p ∈ l, p.1 < w ∧ p.2 < hgt) →
      ∀ x y, x < w → y < hgt → y * w + x < dat.length →
        ((l.foldl (fun im p =>
            let i := im.to_index (Pos2.mk p.1 p.2)
            { im with data := im.data.set i (im.data.getD i 0 + 1) })
          (Image.mk dat w hgt)).data.getD (y * w + x) 0)
          = dat.getD (y * w + x) 0
            + (l.filter (fun p => p.1 = x ∧ p.2 = y)).length := by
  induction l with
  | nil =>
    intro dat _ x y hx hy hi
    simp
  | cons p l ih =>
    intro dat hmem x y hx hy hi
    obtain ⟨hp1, hp2⟩ := hmem p (List.mem_cons_self p l)
    rw [List.foldl_cons]
    show (List.foldl _ (Image.mk (dat.set (p.2 * w + p.1)
        (dat.getD (p.2 * w + p.1) 0 + 1)) w hgt) l).data.getD (y * w + x) 0 = _
    rw [ih (dat.set (p.2 * w + p.1) (dat.getD (p.2 * w + p.1) 0 + 1))
      (fun q hq => hmem q (List.mem_cons_of_mem p hq)) x y hx hy
      (by rw [List.length_set]; exact hi)]
    rw [List.filter_cons]
    by_cases hxy : p.1 = x ∧ p.2 = y
    · obtain ⟨he1, he2⟩ := hxy
      subst he1
      subst he2
      rw [if_pos (by simp)]
      have hset : (dat.set (p.2 * w + p.1)
          (dat.getD (p.2 * w + p.1) 0 + 1)).getD (p.2 * w + p.1) 0
          = dat.getD (p.2 * w + p.1) 0 + 1 := by
        rw [List.getD_eq_getElem?_getD, List.getElem?_set_self hi]
        rfl
      rw [hset, List.length_cons]
      omega
    · rw [if_neg (by simpa using hxy)]
      have hne : p.2 * w + p.1 ≠ y * w + x := by
        intro heq
        obtain ⟨h1, h2⟩ := to_index_inj w p.1 p.2 x y hp1 hx heq
        exact hxy ⟨h1, h2⟩
      have hset : (dat.set (p.2 * w + p.1)
          (dat.getD (p.2 * w + p.1) 0 + 1)).getD (y * w + x) 0
          = dat.getD (y * w + x) 0 := by
        rw [List.getD_eq_getElem?_getD, List.getElem?_set_ne hne,
          ← List.getD_eq_getElem?_getD]
      rw [hset]

theorem sum_set_getD_succ (dat : List Nat) :
    ∀ i, i < dat.length →
      (dat.set i (dat.getD i 0 + 1)).sum = dat.sum + 1 := by
  induction dat with
  | nil => intro i h; simp at h
  | cons a l ih =>
    intro i h
    match i with
    | 0 =>
      simp only [List.set_cons_zero, List.getD_cons_zero, List.sum_cons]
      omega
    | i' + 1 =>
      simp only [List.set_cons_succ, List.getD_cons_succ, List.sum_cons]
      rw [ih i' (by simpa using h)]
      omega

/-- C7: on a zero-initialized 256×256 grid, `put_points` makes cell
`(x, y)` hold the number of indices `i` in `[0, len-1)` with
`bytes[i] = x` and `bytes[i+1] = y`. -/
theorem put_points_counts (bytes : List Nat) (hb : ∀ b ∈ bytes, b < 256)
    (x y : Nat) (hx : x < 256) (hy : y < 256) :
    (put_points (Image.new Nat 256 256 0) bytes).get? (Pos2.mk x y)
      = some (((List.range (bytes.length - 1)).filter
          (fun i => bytes.getD i 0 = x ∧ bytes.getD (i + 1) 0 = y)).length) := by
  have hwidth : (put_points (Image.new Nat 256 256 0) bytes).width = 256 :=
    put_points_fold_width (bytes.zip (bytes.drop 1)) (Image.new Nat 256 256 0)
  have hlen : (put_points (Image.new Nat 256 256 0) bytes).data.length
      = 256 * 256 := by
    have h := put_points_fold_length (bytes.zip (bytes.drop 1))
      (Image.new Nat 256 256 0)
    have h2 : (Image.new Nat 256 256 0).data.length = 256 * 256 :=
      List.length_replicate ..
    rw [h2] at h
    exact h
  have hidx : y * 256 + x < 256 * 256 := by omega
  have hti : (put_points (Image.new Nat 256 256 0) bytes).to_index (Pos2.mk x y)
      = y * 256 + x := by
    simp only [Image.to_index, Image.to_index_assoc, hwidth]
  have hbound : y * 256 + x
      < (put_points (Image.new Nat 256 256 0) bytes).data.length := by
    rw [hlen]; exact hidx
  simp only [Image.get?, hti]
  rw [List.getElem?_eq_getElem hbound,
    ← List.getD_eq_getElem _ 0 hbound]
  have hfold := put_points_fold_getD 256 256 (bytes.zip (bytes.drop 1))
    (List.replicate (256 * 256) 0)
    (by
      intro p hp
      obtain ⟨h1, h2⟩ := List.mem_zip hp
      exact ⟨hb _ h1, hb _ (List.mem_of_mem_drop h2)⟩)
    x y hx hy
    (by rw [List.length_replicate]; exact hidx)
  rw [show (put_points (Image.new Nat 256 256 0) bytes).data.getD (y * 256 + x) 0
      = ((bytes.zip (bytes.drop 1)).foldl (fun im p =>
          let i := im.to_index (Pos2.mk p.1 p.2)
          { im with data := im.data.set i (im.data.getD i 0 + 1) })
        (Image.mk (List.replicate (256 * 256) 0) 256 256)).data.getD
          (y * 256 + x) 0 from rfl,
    hfold,
    show (List.replicate (256 * 256) (0 : Nat)).getD (y * 256 + x) 0 = 0 from by
      rw [List.getD_eq_getElem _ 0 (by rw [List.length_replicate]; exact hidx)]
      exact List.getElem_replicate ..,
    Nat.zero_add,
    zip_shift_eq_range_map bytes, List.filter_map, List.length_map]
  rfl

theorem put_points_counts_witness :
    (put_points (Image.new Nat 256 256 0) [0, 1, 0, 1]).get? (Pos2.mk 0 1)
      = some (((List.range (([0, 1, 0, 1] : List Nat).length - 1)).filter
          (fun i => ([0, 1, 0, 1] : List Nat).getD i 0 = 0 ∧
            ([0, 1, 0, 1] : List Nat).getD (i + 1) 0 = 1)).length) :=
  put_points_counts [0, 1, 0, 1] (by decide) 0 1 (by decide) (by decide)

theorem put_points_fold_sum (w hgt : Nat) (l : List (Nat × Nat)) :
    ∀ (dat : List Nat),
      (∀ p ∈ l, p.2 * w + p.1 < dat.length) →
      ((l.foldl (fun im p =>
          let i := im.to_index (Pos2.mk p.1 p.2)
          { im with data := im.data.set i (im.data.getD i 0 + 1) })
        (Image.mk dat w hgt)).data.sum) = dat.sum + l.length := by
  induction l with
  | nil => intro dat _; simp
  | cons p l ih =>
    intro dat hmem
    rw [List.foldl_cons]
    show (List.foldl _ (Image.mk (dat.set (p.2 * w + p.1)
        (dat.getD (p.2 * w + p.1) 0 + 1)) w hgt) l).data.sum = _
    rw [ih (dat.set (p.2 * w + p.1) (dat.getD (p.2 * w + p.1) 0 + 1))
        (fun q hq => by
          rw [List.length_set]
          exact hmem q (List.mem_cons_of_mem p hq)),
      sum_set_getD_succ dat (p.2 * w + p.1) (hmem p (List.mem_cons_self p l)),
      List.length_cons]
    omega

/-- C9: after `put_points` on the all-zero 256×256 grid, the total of all
cells equals the number of adjacent pairs: `L - 1` when `L ≥ 1` and `0`
when `L = 0` (counters are `Nat`, so no u32 overflow is modelled). -/
theorem put_points_total (bytes : List Nat) (hb : ∀ b ∈ bytes, b < 256) :
    (bytes.length = 0 →
      (put_points (Image.new Nat 256 256 0) bytes).data.sum = 0) ∧
    (1 ≤ bytes.length →
      (put_points (Image.new Nat 256 256 0) bytes).data.sum
        = bytes.length - 1) := by
  have hsum := put_points_fold_sum 256 256 (bytes.zip (bytes.drop 1))
    (List.replicate (256 * 256) 0)
    (by
      intro p hp
      obtain ⟨h1, h2⟩ := List.mem_zip hp
      have hx := hb _ h1
      have hy := hb _ (List.mem_of_mem_drop h2)
      rw [List.length_replicate]
      omega)
  rw [show (List.replicate (256 * 256) (0 : Nat)).sum = 0 from by
      rw [List.sum_const_nat, Nat.mul_zero],
    List.length_zip, List.length_drop] at hsum
  constructor
  · intro h0
    show (List.foldl _ (Image.mk (List.replicate (256 * 256) (0 : Nat)) 256 256)
      (bytes.zip (bytes.drop 1))).data.sum = 0
    rw [hsum]
    omega
  · intro h1
    show (List.foldl _ (Image.mk (List.replicate (256 * 256) (0 : Nat)) 256 256)
      (bytes.zip (bytes.drop 1))).data.sum = bytes.length - 1
    rw [hsum]
    omega

theorem put_points_total_witness :
    (put_points (Image.new Nat 256 256 0) [0, 1, 0, 1]).data.sum
      = ([0, 1, 0, 1] : List Nat).length - 1 :=
  (put_points_total [0, 1, 0, 1] (by decide)).2 (by decide)

/-! ### The dead power-of-two check in `HilbertCurve::new` -/

theorem hilbert_new_0 : HilbertCurve.new 0 = none := by
  simp [HilbertCurve.new, HilbertCurve.newLoop_zero]

theorem hilbert_new_3 : HilbertCurve.new 3 = some 1 := by
  have h : HilbertCurve.newLoop 3 = (0, 2) := by
    rw [HilbertCurve.newLoop_pos 3 (by omega), show (3 : Nat) / 2 = 1 from rfl,
      HilbertCurve.newLoop_pos 1 (by omega), show (1 : Nat) / 2 = 0 from rfl,
      HilbertCurve.newLoop_zero]
  simp [HilbertCurve.new, h]

theorem hilbert_new_5 : HilbertCurve.new 5 = some 2 := by
  have h : HilbertCurve.newLoop 5 = (0, 3) := by
    rw [HilbertCurve.newLoop_pos 5 (by omega), show (5 : Nat) / 2 = 2 from rfl,
      HilbertCurve.newLoop_pos 2 (by omega), show (2 : Nat) / 2 = 1 from rfl,
      HilbertCurve.newLoop_pos 1 (by omega), show (1 : Nat) / 2 = 0 from rfl,
      HilbertCurve.newLoop_zero]
  simp [HilbertCurve.new, h]

theorem hilbert_new_6 : HilbertCurve.new 6 = some 2 := by
  have h : HilbertCurve.newLoop 6 = (0, 3) := by
    rw [HilbertCurve.newLoop_pos 6 (by omega), show (6 : Nat) / 2 = 3 from rfl,
      HilbertCurve.newLoop_pos 3 (by omega), show (3 : Nat) / 2 = 1 from rfl,
      HilbertCurve.newLoop_pos 1 (by omega), show (1 : Nat) / 2 = 0 from rfl,
      HilbertCurve.newLoop_zero]
  simp [HilbertCurve.new, h]

/-- C3 (code bug): `HilbertCurve::new` does not fail on non-powers of two.
After the halving loop, `current` is always `0`, so the
`if current != 0 { panic!("size must be a power of 2") }` guard is dead
code: sizes 3, 5 and 6 silently yield the order of a nearby smaller power
of two (`some 1`, `some 2`, `some 2`) instead of panicking.  Only size 0
fails, and only via the debug-mode underflow of `order -= 1`. -/
theorem hilbert_new_accepts_non_powers :
    HilbertCurve.new 3 = some 1 ∧ HilbertCurve.new 5 = some 2 ∧
    HilbertCurve.new 6 = some 2 ∧ HilbertCurve.new 0 = none :=
  ⟨hilbert_new_3, hilbert_new_5, hilbert_new_6, hilbert_new_0⟩

/-- C8 (code bug): `unhilbertify` applied to a square 3×3 grid (side not a
power of two) does not fail: because the power-of-two check in
`HilbertCurve::new` is dead, it silently rewrites the grid to a
non-permutation of the original data (values 0, 1, 3, 4 are lost, values
5, 6, 7, 8 duplicated). -/
theorem unhilbertify_non_power_of_two_corrupts :
    Image.unhilbertify (Image.mk ([0, 1, 2, 3, 4, 5, 6, 7, 8] : List Nat) 3 3)
      = some (Image.mk ([8, 7, 2, 5, 6, 5, 6, 7, 8] : List Nat) 3 3) ∧
    Image.mk ([8, 7, 2, 5, 6, 5, 6, 7, 8] : List Nat) 3 3
      ≠ Image.mk ([0, 1, 2, 3, 4, 5, 6, 7, 8] : List Nat) 3 3 := by
  constructor
  · simp only [Image.unhilbertify, hilbert_new_3, Option.map_some']
    decide
  · decide

/-! ### Bounds behaviour of coordinate indexing -/

/-- C4 (counterexample): on a 2×2 grid, position `(x = 2, y = 0)` has
`x ≥ width`, yet `Index` returns `some 30` — the value of cell `(0, 1)` —
and `IndexMut` overwrites that same other cell, instead of failing. -/
theorem index_out_of_range_aliases :
    (Image.mk ([10, 20, 30, 40] : List Nat) 2 2).width ≤ 2 ∧
    (Image.mk ([10, 20, 30, 40] : List Nat) 2 2).get? (Pos2.mk 2 0)
      = some 30 ∧
    (Image.mk ([10, 20, 30, 40] : List Nat) 2 2).set? (Pos2.mk 2 0) 99
      = some (Image.mk ([10, 20, 99, 40] : List Nat) 2 2) := by
  refine ⟨by decide, by decide, by decide⟩

/-- C4 (amended): coordinate access through `Index`/`IndexMut` fails
(panics) exactly when the flattened row-major index `y*width + x` falls
outside the backing buffer, i.e. iff `width*height ≤ y*width + x`.  In
particular any access with `y ≥ height` fails loudly, but a position with
`x ≥ width` whose flattened index is still in range silently reads or
writes the cell at that flattened index — another cell of the grid. -/
theorem index_fails_iff_flat_index_out {T : Type} (img : Image T)
    (hlen : img.data.length = img.width * img.height) (pos : Pos2) (v : T) :
    (img.get? pos = none ↔
      img.width * img.height ≤ pos.y * img.width + pos.x) ∧
    (img.set? pos v = none ↔
      img.width * img.height ≤ pos.y * img.width + pos.x) := by
  constructor
  · simp only [Image.get?, Image.to_index, Image.to_index_assoc]
    rw [List.getElem?_eq_none_iff, hlen]
  · simp only [Image.set?, Image.to_index, Image.to_index_assoc]
    rw [hlen]
    by_cases h : pos.y * img.width + pos.x < img.width * img.height
    · rw [if_pos h]
      simp only [reduceCtorEq, false_iff]
      omega
    · rw [if_neg h]
      simp only [true_iff]
      omega

theorem index_fails_iff_flat_index_out_witness :
    ((Image.mk ([10, 20, 30, 40] : List Nat) 2 2).get? (Pos2.mk 1 2) = none ↔
      2 * 2 ≤ 2 * 2 + 1) ∧
    ((Image.mk ([10, 20, 30, 40] : List Nat) 2 2).set? (Pos2.mk 1 2) 7 = none ↔
      2 * 2 ≤ 2 * 2 + 1) :=
  index_fails_iff_flat_index_out
    (Image.mk ([10, 20, 30, 40] : List Nat) 2 2) rfl (Pos2.mk 1 2) 7
